import Mathlib

/-!
Shallow embedding of `rally/task/processing/utils.py` (statistics,
atomic-action extraction, batch compression and the streaming
`GraphZipper`), together with theorems settling the specification
claims about it.

Numeric samples are modelled as rationals (`ℚ`); Python's
arbitrary-precision integers are `ℕ`/`ℤ`.  Functions that raise are
modelled with `Except`; the in-place mutation performed by
`list.sort()` is modelled by returning the final state of the caller's
buffer alongside the result.
-/

namespace Rally

/-- Exception taxonomy of the Python code: `InvalidArgumentsException`,
`ValueError`, `RuntimeError` and `KeyError` are distinct exception
types. -/
inductive RallyError where
  | invalidArgument (msg : String)
  | valueError (msg : String)
  | runtimeError (msg : String)
  | keyError (msg : String)
  deriving DecidableEq, Repr

/-- Python `int(q)` for a rational: truncation toward zero. -/
def pyTrunc (q : ℚ) : ℤ :=
  if q < 0 then ⌈q⌉ else ⌊q⌋

/-- Python list indexing `l[i]` (negative indices count from the end);
out-of-range access is given the junk value `0` — every use below is
in range. -/
def pyIndex (l : List ℚ) (i : ℤ) : ℚ :=
  if i < 0 then l.getD (l.length - (-i).toNat) 0 else l.getD i.toNat 0

/-- `mean(values)`: `math.fsum(values) / len(values)` after the
emptiness check (`fsum` is an exact sum, which rational addition is). -/
def mean (values : List ℚ) : Except RallyError ℚ :=
  if values = [] then
    .error (.invalidArgument "the list should be non-empty")
  else
    .ok (values.sum / values.length)

/-- `median(values)`: raises `ValueError` on empty input; otherwise
sorts a copy (`values = sorted(values)` rebinds the local name only)
and takes the middle element, or the average of the two middle ones. -/
def median (values : List ℚ) : Except RallyError ℚ :=
  if values = [] then
    .error (.valueError "no median for empty data")
  else
    let v := List.insertionSort (· ≤ ·) values
    let size := v.length
    if size % 2 = 1 then
      .ok (pyIndex v (size / 2))
    else
      .ok ((pyIndex v (size / 2 - 1) + pyIndex v (size / 2)) / 2)

/-- `median` viewed as a call on a buffer passed by reference: the
result together with the caller's list after the call.  `sorted`
allocates a new list, so the buffer is returned untouched. -/
def medianCall (values : List ℚ) : Except RallyError ℚ × List ℚ :=
  (median values, values)

/-- `percentile(values, percent)` as a call on a buffer passed by
reference: `values.sort()` mutates the caller's list in place, so the
final buffer is the sorted list (on the empty list the function
returns `None` before sorting). -/
def percentileCall (values : List ℚ) (percent : ℚ) : Option ℚ × List ℚ :=
  if values = [] then
    (none, values)
  else
    let v := List.insertionSort (· ≤ ·) values
    let k : ℚ := ((v.length - 1 : ℕ) : ℚ) * percent
    let f : ℤ := ⌊k⌋
    let c : ℤ := ⌈k⌉
    if f = c then
      (some (pyIndex v (pyTrunc k)), v)
    else
      (some (pyIndex v f * ((c : ℚ) - k) + pyIndex v c * (k - (f : ℚ))), v)

/-- The value returned by `percentile`. -/
def percentile (values : List ℚ) (percent : ℚ) : Option ℚ :=
  (percentileCall values percent).1

/-- Is this result an `InvalidArgumentsException`? -/
def isInvalidArgumentError {α : Type} : Except RallyError α → Bool
  | .error (.invalidArgument _) => true
  | _ => false

theorem pyTrunc_of_nonneg {q : ℚ} (h : 0 ≤ q) : pyTrunc q = ⌊q⌋ := by
  simp [pyTrunc, not_lt.mpr h]

theorem pyIndex_of_nonneg (l : List ℚ) {i : ℤ} (h : 0 ≤ i) :
    pyIndex l i = l.getD i.toNat 0 := by
  simp [pyIndex, not_lt.mpr h]

/-- C4 (counterexample): `median([])` raises `ValueError`, not
`InvalidArgumentsException`, so the claim that both `mean([])` and
`median([])` fail with an InvalidArgument error is false. -/
theorem median_empty_not_invalidArgument :
    median ([] : List ℚ) = .error (.valueError "no median for empty data")
      ∧ isInvalidArgumentError (median ([] : List ℚ)) = false := by
  constructor <;> rfl

/-- C4 (amended): `mean([])` fails with `InvalidArgumentsException`,
`median([])` fails with `ValueError`, and `percentile([], p)` returns
an absent value (`none`) for every percent `p`. -/
theorem empty_input_behaviour :
    mean ([] : List ℚ) = .error (.invalidArgument "the list should be non-empty")
      ∧ median ([] : List ℚ) = .error (.valueError "no median for empty data")
      ∧ ∀ p : ℚ, percentile [] p = none := by
  refine ⟨rfl, rfl, fun p => rfl⟩

/-- C8: on a non-empty list and `percent ∈ [0, 1]`, `percentile` sorts
the values and returns the linear-interpolation percentile at rank
`k = (n-1)·percent`: the element at rank `k` when `k` is an integer,
otherwise `s[⌊k⌋]·(⌈k⌉-k) + s[⌈k⌉]·(k-⌊k⌋)` over the sorted list `s`. -/
theorem percentile_linear_interpolation (values : List ℚ) (percent : ℚ)
    (hne : values ≠ []) (h0 : 0 ≤ percent) (_h1 : percent ≤ 1) :
    percentile values percent =
      some (
        let s := List.insertionSort (· ≤ ·) values
        let k : ℚ := ((values.length - 1 : ℕ) : ℚ) * percent
        if ⌊k⌋ = ⌈k⌉ then
          pyIndex s ⌊k⌋
        else
          pyIndex s ⌊k⌋ * ((⌈k⌉ : ℚ) - k) + pyIndex s ⌈k⌉ * (k - (⌊k⌋ : ℚ))) := by
  have hlen : (List.insertionSort (· ≤ ·) values).length = values.length :=
    List.length_insertionSort (· ≤ ·) values
  have hk0 : (0 : ℚ) ≤ ((values.length - 1 : ℕ) : ℚ) * percent := by
    exact mul_nonneg (by positivity) h0
  simp only [percentile, percentileCall, if_neg hne, hlen]
  by_cases hfc : ⌊((values.length - 1 : ℕ) : ℚ) * percent⌋ =
      ⌈((values.length - 1 : ℕ) : ℚ) * percent⌉
  · simp [hfc, pyTrunc_of_nonneg hk0]
  · simp [hfc]

/-- C8 (witness): `percentile([1,2,3,4], 0.5) = 2.5` and
`percentile([10], 0.9) = 10`, via the interpolation formula. -/
theorem percentile_linear_interpolation_examples :
    percentile [1, 2, 3, 4] (1/2) = some (5/2)
      ∧ percentile [10] (9/10) = some 10 := by
  constructor
  · rw [percentile_linear_interpolation [1, 2, 3, 4] (1/2) (by simp)
      (by norm_num) (by norm_num)]
    have hf : ⌊(3/2 : ℚ)⌋ = 1 := by norm_num
    have hc : ⌈(3/2 : ℚ)⌉ = 2 := by
      norm_num [Int.ceil_eq_iff]
    norm_num [List.insertionSort, List.orderedInsert,
      show ((([1, 2, 3, 4] : List ℚ).length - 1 : ℕ) : ℚ) * (1/2) = 3/2 by norm_num,
      hf, hc, pyIndex, show Int.toNat 2 = (2 : ℕ) by rfl]
  · rw [percentile_linear_interpolation [10] (9/10) (by simp)
      (by norm_num) (by norm_num)]
    norm_num [List.insertionSort, List.orderedInsert,
      show ((([10] : List ℚ).length - 1 : ℕ) : ℚ) * (9/10) = 0 by norm_num,
      pyIndex]

/-- C9: `median` leaves the caller's buffer unchanged (it sorts a
copy), while `percentile` on a non-empty list sorts the caller's
buffer in place: afterwards it holds a sorted permutation of its
original contents. -/
theorem median_pure_percentile_mutates (ms : List ℚ) (values : List ℚ)
    (p : ℚ) (hne : values ≠ []) :
    (medianCall ms).2 = ms
      ∧ (percentileCall values p).2.Perm values
      ∧ (percentileCall values p).2.Sorted (· ≤ ·) := by
  refine ⟨rfl, ?_, ?_⟩
  · simp only [percentileCall, if_neg hne]
    split
    · exact List.perm_insertionSort (· ≤ ·) values
    · exact List.perm_insertionSort (· ≤ ·) values
  · simp only [percentileCall, if_neg hne]
    split
    · exact List.sorted_insertionSort (· ≤ ·) values
    · exact List.sorted_insertionSort (· ≤ ·) values

/-- C9 (witness): concrete instance — `median` leaves `[3,1,2]`
unchanged; `percentile` leaves the buffer `[2,1]` sorted. -/
theorem median_pure_percentile_mutates_witness :
    (medianCall [3, 1, 2]).2 = [3, 1, 2]
      ∧ (percentileCall [2, 1] (1/2)).2.Perm [2, 1]
      ∧ (percentileCall [2, 1] (1/2)).2.Sorted (· ≤ ·) :=
  median_pure_percentile_mutates [3, 1, 2] [2, 1] (1/2) (by decide)

/-! ### Atomic-action extraction (`get_atomic_actions_data`) -/

/-- A raw benchmark record: `duration`, boolean `error` flag, and the
`atomic_actions` mapping.  `atomic_actions = none` models a record
without the `"atomic_actions"` key; the mapping itself is an ordered
association list (a Python dict in insertion order). -/
structure RawRecord where
  duration : ℚ
  error : Bool
  atomic_actions : Option (List (String × ℚ))
  deriving DecidableEq, Repr

/-- Python `d.get(key)`: `none` when the key is absent. -/
def alistGet (m : List (String × ℚ)) (key : String) : Option ℚ :=
  match m with
  | [] => none
  | (k, v) :: rest => if k = key then some v else alistGet rest key

/-- `OrderedDict` assignment `d[k] = v`: replaces the value in place
when the key exists, otherwise appends a new entry. -/
def odInsert (d : List (String × List ℚ)) (k : String) (v : List ℚ) :
    List (String × List ℚ) :=
  match d with
  | [] => [(k, v)]
  | (k', v') :: rest =>
    if k' = k then (k', v) :: rest else (k', v') :: odInsert rest k v

/-- `OrderedDict` lookup. -/
def odLookup (d : List (String × List ℚ)) (k : String) : Option (List ℚ) :=
  match d with
  | [] => none
  | (k', v') :: rest => if k' = k then some v' else odLookup rest k

/-- The first loop of `get_atomic_actions_data`: scan for the first
record with `not row["error"] and "atomic_actions" in row` (key
presence, regardless of whether the mapping is empty) and take its
mapping; `none` when no record qualifies. -/
def firstActionRecord : List RawRecord → Option (List (String × ℚ))
  | [] => none
  | r :: rs =>
    if !r.error && r.atomic_actions.isSome then r.atomic_actions
    else firstActionRecord rs

/-- The action-name list `atomic_actions` used by the second loop
(empty when no record qualified). -/
def actionNames (raw : List RawRecord) : List String :=
  ((firstActionRecord raw).getD []).map Prod.fst

/-- The comprehension
`[r["atomic_actions"][a] for r in raw_data if r["atomic_actions"].get(a) is not None]`:
evaluating the filter on a record without the `"atomic_actions"` key
raises `KeyError`. -/
def actionDurations (raw : List RawRecord) (a : String) :
    Except RallyError (List ℚ) :=
  match raw with
  | [] => .ok []
  | r :: rs =>
    match r.atomic_actions with
    | none => .error (.keyError "atomic_actions")
    | some m =>
      match alistGet m a with
      | some v => (actionDurations rs a).map (v :: ·)
      | none => actionDurations rs a

/-- `get_atomic_actions_data(raw_data)`: builds an ordered mapping
from each action name (taken from the first error-free record with the
`atomic_actions` key) to its duration sequence, then assigns the
`"total"` entry: the durations of all error-free records in order. -/
def get_atomic_actions_data (raw : List RawRecord) :
    Except RallyError (List (String × List ℚ)) := do
  let mut_data ← (actionNames raw).foldlM
    (fun acc a => do
      let ds ← actionDurations raw a
      pure (odInsert acc a ds)) []
  pure (odInsert mut_data "total"
    ((raw.filter (fun r => !r.error)).map RawRecord.duration))

theorem odLookup_odInsert_self (d : List (String × List ℚ)) (k : String)
    (v : List ℚ) : odLookup (odInsert d k v) k = some v := by
  induction d with
  | nil => simp [odInsert, odLookup]
  | cons hd tl ih =>
    obtain ⟨k', v'⟩ := hd
    by_cases h : k' = k <;> simp [odInsert, odLookup, h, ih]

theorem odInsert_keys_of_not_mem (d : List (String × List ℚ)) (k : String)
    (v : List ℚ) (h : k ∉ d.map Prod.fst) :
    (odInsert d k v).map Prod.fst = d.map Prod.fst ++ [k] := by
  induction d with
  | nil => simp [odInsert]
  | cons hd tl ih =>
    obtain ⟨k', v'⟩ := hd
    simp only [List.map_cons, List.mem_cons] at h
    push_neg at h
    simp [odInsert, Ne.symm h.1, ih h.2]

theorem firstActionRecord_append (pre rs : List RawRecord)
    (hpre : ∀ r' ∈ pre, r'.error = true ∨ r'.atomic_actions = none) :
    firstActionRecord (pre ++ rs) = firstActionRecord rs := by
  induction pre with
  | nil => rfl
  | cons hd tl ih =>
    have hhd := hpre hd (by simp)
    have hcond : (!hd.error && hd.atomic_actions.isSome) = false := by
      rcases hhd with h | h <;> simp [h]
    simp only [List.cons_append, firstActionRecord, hcond]
    exact ih (fun r' hr' => hpre r' (by simp [hr']))

theorem foldlM_odInsert_keys (raw : List RawRecord) :
    ∀ (names : List String) (acc res : List (String × List ℚ)),
    names.foldlM
      (fun acc a => do
        let ds ← actionDurations raw a
        pure (odInsert acc a ds)) acc = .ok res →
    names.Nodup → (∀ a ∈ names, a ∉ acc.map Prod.fst) →
    res.map Prod.fst = acc.map Prod.fst ++ names := by
  intro names
  induction names with
  | nil =>
    intro acc res hok _ _
    simp only [List.foldlM_nil] at hok
    cases hok
    simp
  | cons a rest ih =>
    intro acc res hok hnd hfresh
    simp only [List.foldlM_cons, bind, Except.bind] at hok
    cases hds : actionDurations raw a with
    | error e => rw [hds] at hok; cases hok
    | ok ds =>
      rw [hds] at hok
      simp only [pure, Except.pure] at hok
      have hnotmem : a ∉ acc.map Prod.fst := hfresh a (by simp)
      have hkeys := odInsert_keys_of_not_mem acc a ds hnotmem
      have hnd' := (List.nodup_cons.mp hnd).2
      have hfresh' : ∀ b ∈ rest, b ∉ (odInsert acc a ds).map Prod.fst := by
        intro b hb
        rw [hkeys]
        simp only [List.mem_append, List.mem_singleton]
        rintro (h | h)
        · exact hfresh b (by simp [hb]) h
        · exact (List.nodup_cons.mp hnd).1 (h ▸ hb)
      have := ih (odInsert acc a ds) res hok hnd' hfresh'
      rw [this, hkeys]
      simp

/-- C5 (counterexample): the code selects the action-name set from the
first error-free record whose `atomic_actions` *key is present*, even
when the mapping is empty.  Here the second record has a non-empty
mapping `{"a": 1}`, so under the claim the action set would be
`{"a"}`; the code instead takes the empty mapping of the first record
and the result has no `"a"` entry at all. -/
theorem get_atomic_actions_data_empty_mapping_counterexample :
    get_atomic_actions_data
        [⟨1, false, some []⟩, ⟨2, false, some [("a", 1)]⟩]
      = .ok [("total", [1, 2])] := rfl

/-- C5 (amended): `get_atomic_actions_data` takes its action-name set
from the first record with `error = false` and the atomic-actions key
present (an empty mapping qualifies); the set is empty when no such
record exists; and whenever the call returns, its result maps
`"total"` to the `duration` of every record with `error = false`, in
original record order. -/
theorem get_atomic_actions_data_spec (raw : List RawRecord)
    (res : List (String × List ℚ))
    (hok : get_atomic_actions_data raw = .ok res) :
    odLookup res "total"
        = some ((raw.filter (fun r => !r.error)).map RawRecord.duration)
      ∧ (∀ pre r post m, raw = pre ++ r :: post →
          (∀ r' ∈ pre, r'.error = true ∨ r'.atomic_actions = none) →
          r.error = false → r.atomic_actions = some m →
          (m.map Prod.fst).Nodup → "total" ∉ m.map Prod.fst →
          res.map Prod.fst = m.map Prod.fst ++ ["total"])
      ∧ ((∀ r' ∈ raw, r'.error = true ∨ r'.atomic_actions = none) →
          res = [("total",
            (raw.filter (fun r => !r.error)).map RawRecord.duration)]) := by
  rw [get_atomic_actions_data] at hok
  cases hfold : (actionNames raw).foldlM
      (fun acc a => do
        let ds ← actionDurations raw a
        pure (odInsert acc a ds)) ([] : List (String × List ℚ)) with
  | error e =>
    rw [hfold] at hok
    simp only [bind, Except.bind] at hok
    cases hok
  | ok w =>
    rw [hfold] at hok
    simp only [bind, Except.bind, pure, Except.pure, Except.ok.injEq] at hok
    subst hok
    refine ⟨odLookup_odInsert_self _ _ _, ?_, ?_⟩
    · intro pre r post m hsplit hpre hr hm hnd htot
      have hnames : actionNames raw = m.map Prod.fst := by
        rw [hsplit, actionNames, firstActionRecord_append pre (r :: post) hpre]
        simp [firstActionRecord, hr, hm]
      rw [hnames] at hfold
      have hw := foldlM_odInsert_keys raw (m.map Prod.fst) [] w hfold hnd
        (by simp)
      rw [odInsert_keys_of_not_mem w "total" _ (by rw [hw]; simpa using htot),
        hw]
      simp
    · intro hnone
      have hnames : actionNames raw = [] := by
        rw [actionNames]
        have : firstActionRecord raw = none := by
          have := firstActionRecord_append raw [] hnone
          simpa using this
        simp [this]
      rw [hnames] at hfold
      simp only [List.foldlM_nil] at hfold
      cases hfold
      rfl

/-- C5 (witness for the amended claim): a concrete run — the first
record errors, the second is the first qualifying one. -/
theorem get_atomic_actions_data_spec_witness :
    odLookup
        [("a", [5, 3, 4]), ("total", [2, 3])] "total" = some [2, 3]
      ∧ [("a", [5, 3, 4]), ("total", [2, 3])].map Prod.fst = ["a", "total"] := by
  have hok : get_atomic_actions_data
      [⟨1, true, some [("a", 5)]⟩, ⟨2, false, some [("a", 3)]⟩,
        ⟨3, false, some [("a", 4)]⟩]
      = .ok [("a", [5, 3, 4]), ("total", [2, 3])] := rfl
  have h := get_atomic_actions_data_spec _ _ hok
  refine ⟨by rw [h.1]; rfl, ?_⟩
  have h2 := h.2.1 [⟨1, true, some [("a", 5)]⟩] ⟨2, false, some [("a", 3)]⟩
    [⟨3, false, some [("a", 4)]⟩] [("a", 3)] rfl
    (by intro r' hr'; simp at hr'; subst hr'; left; rfl) rfl rfl
    (by simp) (by simp)
  exact h2.trans rfl

/-! ### Batch compressor (`compress`) -/

/-- Round half to even (Python `round`) to an integer. -/
def roundHalfEven (q : ℚ) : ℤ :=
  let f := ⌊q⌋
  if q - f < 1/2 then f
  else if 1/2 < q - f then f + 1
  else if f % 2 = 0 then f else f + 1

/-- `round(float(i), 2)`: round to two decimal places. -/
def round2 (q : ℚ) : ℚ := (roundHalfEven (q * 100) : ℚ) / 100

/-- Default `normalize`: `lambda i: i and round(float(i), 2) or 0.0`.
A falsy input (zero) yields `0.0`, as does a rounded value of zero —
the same rational in this model. -/
def normalizeDefault (i : ℚ) : ℚ := if i = 0 then 0 else round2 i

/-- Default `merge` in terms of the resolved `normalize`:
`lambda a, b: normalize((a + normalize(b)) / 2)`. -/
def mergeDefault (normalize : ℚ → ℚ) (a b : ℚ) : ℚ :=
  normalize ((a + normalize b) / 2)

/-- Loop state of the `compress` walk: `store`, the `first` flag, the
running `cur_value` (`0` stands for the unbound Python variable — the
code never reads it while `first` is set) and the accumulated
`result`. -/
structure CompressState where
  store : ℚ
  first : Bool
  cur_value : ℚ
  result : List (ℕ × ℚ)
  deriving Repr

/-- One iteration of the `compress` walk at 1-based index `idx`:
`store += factor`; fold the value into `cur_value` (fresh via
`normalize` when a run starts, else via `merge`); flush
`(idx, cur_value)` when `store > 1`, consuming one unit of `store`. -/
def compressStep (normalize : ℚ → ℚ) (merge : ℚ → ℚ → ℚ) (factor : ℚ)
    (s : CompressState) (idx : ℕ) (value : ℚ) : CompressState :=
  let store := s.store + factor
  let cur_value := if s.first then normalize value else merge s.cur_value value
  if 1 < store then
    { store := store - 1, first := true, cur_value := cur_value,
      result := s.result ++ [(idx, cur_value)] }
  else
    { store := store, first := false, cur_value := cur_value,
      result := s.result }

/-- The `compress` walk over the remaining data, starting at `idx`. -/
def compressLoop (normalize : ℚ → ℚ) (merge : ℚ → ℚ → ℚ) (factor : ℚ) :
    CompressState → ℕ → List ℚ → CompressState
  | s, _, [] => s
  | s, idx, v :: vs =>
    compressLoop normalize merge factor
      (compressStep normalize merge factor s idx v) (idx + 1) vs

/-- `compress(data, limit, merge, normalize)` with the two callables
already resolved: identity enumeration when the data fits, otherwise
the factor-driven merge walk followed by the final flush of a partial
run at the last input index. -/
def compressWith (normalize : ℚ → ℚ) (merge : ℚ → ℚ → ℚ)
    (data : List ℚ) (limit : ℕ) : List (ℕ × ℚ) :=
  if data.length ≤ limit then
    (data.enumFrom 1).map (fun p => (p.1, normalize p.2))
  else
    let factor : ℚ := (limit : ℚ) / (data.length : ℚ)
    let st := compressLoop normalize merge factor ⟨0, true, 0, []⟩ 1 data
    if st.first = false then st.result ++ [(data.length, st.cur_value)]
    else st.result

/-- `compress(data, limit)` with the default callables. -/
def compress (data : List ℚ) (limit : ℕ) : List (ℕ × ℚ) :=
  compressWith normalizeDefault (mergeDefault normalizeDefault) data limit

/-- Invariant of the `compress` walk after `p` inputs have been
consumed: exact `store` accounting, positivity of `store`, strictly
increasing flushed positions bounded by `p`, and — when a partial run
is open — all flushed positions lie strictly before `p`. -/
def CompressInv (factor : ℚ) (p : ℕ) (s : CompressState) : Prop :=
  s.store = p * factor - s.result.length
    ∧ 0 ≤ s.store
    ∧ (0 < p → 0 < s.store)
    ∧ s.result.Pairwise (fun a b => a.1 < b.1)
    ∧ (∀ q ∈ s.result, 1 ≤ q.1 ∧ q.1 ≤ p)
    ∧ (s.first = false → 0 < p ∧ ∀ q ∈ s.result, q.1 < p)

theorem compressStep_inv (normalize : ℚ → ℚ) (merge : ℚ → ℚ → ℚ)
    {factor : ℚ} (hf : 0 < factor) {p : ℕ} {s : CompressState}
    (h : CompressInv factor p s) (v : ℚ) :
    CompressInv factor (p + 1) (compressStep normalize merge factor s (p + 1) v) := by
  obtain ⟨hstore, hpos, hspos, hpw, hbnd, hfirst⟩ := h
  by_cases hflush : 1 < s.store + factor
  · refine ⟨?_, ?_, ?_, ?_, ?_, ?_⟩ <;>
      simp only [compressStep, if_pos hflush]
    · simp only [List.length_append, List.length_singleton]
      rw [hstore]
      push_cast
      ring
    · linarith
    · intro _; linarith
    · rw [List.pairwise_append]
      refine ⟨hpw, List.pairwise_singleton _ _, ?_⟩
      intro a ha b hb
      simp only [List.mem_singleton] at hb
      subst hb
      exact lt_of_le_of_lt (hbnd a ha).2 (Nat.lt_succ_self p)
    · intro q hq
      simp only [List.mem_append, List.mem_singleton] at hq
      rcases hq with hq | hq
      · exact ⟨(hbnd q hq).1, le_trans (hbnd q hq).2 (Nat.le_succ p)⟩
      · subst hq
        exact ⟨Nat.succ_le_succ (Nat.zero_le p), le_refl _⟩
    · intro hff
      simp at hff
  · refine ⟨?_, ?_, ?_, ?_, ?_, ?_⟩ <;>
      simp only [compressStep, if_neg hflush]
    · rw [hstore]
      push_cast
      ring
    · linarith
    · intro _; linarith
    · exact hpw
    · intro q hq
      exact ⟨(hbnd q hq).1, le_trans (hbnd q hq).2 (Nat.le_succ p)⟩
    · intro _
      refine ⟨Nat.succ_le_succ (Nat.zero_le p), fun q hq => ?_⟩
      exact lt_of_le_of_lt (hbnd q hq).2 (Nat.lt_succ_self p)

theorem compressLoop_inv (normalize : ℚ → ℚ) (merge : ℚ → ℚ → ℚ)
    {factor : ℚ} (hf : 0 < factor) :
    ∀ (vs : List ℚ) (p : ℕ) (s : CompressState), CompressInv factor p s →
    CompressInv factor (p + vs.length)
      (compressLoop normalize merge factor s (p + 1) vs) := by
  intro vs
  induction vs with
  | nil =>
    intro p s h
    simpa [compressLoop] using h
  | cons v rest ih =>
    intro p s h
    have hstep := compressStep_inv normalize merge hf h v
    have := ih (p + 1) _ hstep
    simp only [compressLoop]
    simp only [List.length_cons]
    have harith : p + (rest.length + 1) = (p + 1) + rest.length := by omega
    rw [harith]
    simpa using this

/-- C1 (counterexample): with `S = [1]` and `L = 0 < len(S)` the walk
never flushes (`factor = 0`), the partial run is flushed after the
walk, and the output has one point — more than `L`. -/
theorem compress_limit_zero_counterexample :
    (0 : ℕ) < ([(1 : ℚ)]).length ∧ (compress [(1 : ℚ)] 0).length = 1 := by
  refine ⟨by simp, ?_⟩
  have hfac : ((0 : ℕ) : ℚ) / (([(1 : ℚ)]).length : ℚ) = 0 := by norm_num
  simp only [compress, compressWith, List.length_singleton]
  norm_num [compressLoop, compressStep]

/-- The state of the `compress` walk (with the default callables)
after the whole input has been consumed. -/
def compressEndState (data : List ℚ) (limit : ℕ) : CompressState :=
  compressLoop normalizeDefault (mergeDefault normalizeDefault)
    ((limit : ℚ) / (data.length : ℚ)) ⟨0, true, 0, []⟩ 1 data

/-- C1 (amended: `1 ≤ L` added — for `L = 0` the final partial-run
flush still emits one point): for `1 ≤ L < len(S)`, `compress(S, L)`
returns at most `L` points, positions are strictly increasing, at
least `1` and at most `len(S)`, and an unflushed partial run is
flushed as a final point at position `len(S)` — the last input index,
not the index where the run started. -/
theorem compress_bounded (data : List ℚ) (limit : ℕ)
    (hl : 1 ≤ limit) (hlen : limit < data.length) :
    (compress data limit).length ≤ limit
      ∧ (compress data limit).Pairwise (fun a b => a.1 < b.1)
      ∧ (∀ q ∈ compress data limit, 1 ≤ q.1 ∧ q.1 ≤ data.length)
      ∧ ((compressEndState data limit).first = false →
          compress data limit = (compressEndState data limit).result
            ++ [(data.length, (compressEndState data limit).cur_value)]) := by
  unfold compressEndState
  set st := compressLoop normalizeDefault (mergeDefault normalizeDefault)
    ((limit : ℚ) / (data.length : ℚ)) ⟨0, true, 0, []⟩ 1 data with hst
  have hn : 0 < data.length := lt_of_le_of_lt (Nat.zero_le _) hlen
  have hfq : (0 : ℚ) < (limit : ℚ) / (data.length : ℚ) := by
    apply div_pos <;> exact_mod_cast (by omega : (0 : ℕ) < _)
  have hinit : CompressInv ((limit : ℚ) / (data.length : ℚ)) 0
      ⟨0, true, 0, []⟩ := by
    refine ⟨by simp, le_refl _, by omega, List.Pairwise.nil, by simp, ?_⟩
    intro hff
    simp at hff
  have hinv := compressLoop_inv normalizeDefault (mergeDefault normalizeDefault)
    hfq data 0 _ hinit
  simp only [Nat.zero_add] at hinv
  rw [← hst] at hinv
  obtain ⟨hstore, _hpos, hspos, hpw, hbnd, hfirst⟩ := hinv
  have hstpos : 0 < st.store := hspos hn
  have hlenq : (data.length : ℚ) ≠ 0 := by exact_mod_cast Nat.pos_iff_ne_zero.mp hn
  have hstoreq : st.store = (limit : ℚ) - st.result.length := by
    rw [hstore]
    field_simp
  have hresle : st.result.length < limit := by
    have : (st.result.length : ℚ) < (limit : ℚ) := by
      rw [hstoreq] at hstpos
      linarith
    exact_mod_cast this
  have hcompress : compress data limit =
      (if st.first = false then st.result ++ [(data.length, st.cur_value)]
        else st.result) := by
    rw [hst]
    simp only [compress, compressWith, if_neg (by omega : ¬data.length ≤ limit)]
  by_cases hff : st.first = false
  · rw [hcompress, if_pos hff]
    obtain ⟨_, hlt⟩ := hfirst hff
    refine ⟨?_, ?_, ?_, fun _ => rfl⟩
    · simp only [List.length_append, List.length_singleton]
      omega
    · rw [List.pairwise_append]
      refine ⟨hpw, List.pairwise_singleton _ _, ?_⟩
      intro a ha b hb
      simp only [List.mem_singleton] at hb
      subst hb
      exact hlt a ha
    · intro q hq
      simp only [List.mem_append, List.mem_singleton] at hq
      rcases hq with hq | hq
      · exact hbnd q hq
      · subst hq
        exact ⟨hn, le_refl _⟩
  · rw [hcompress, if_neg hff]
    exact ⟨le_of_lt hresle, hpw, hbnd, fun h => absurd h hff⟩

/-- C1 (witness): `compress([1,2,3,4], 2)` has at most two points. -/
theorem compress_bounded_witness :
    1 ≤ 2 ∧ 2 < ([(1 : ℚ), 2, 3, 4]).length
      ∧ (compress [(1 : ℚ), 2, 3, 4] 2).length ≤ 2 :=
  ⟨by norm_num, by norm_num,
    (compress_bounded [1, 2, 3, 4] 2 (by norm_num) (by norm_num)).1⟩

/-! ### Streaming compressor (`GraphZipper`) -/

/-- The message of the capacity-exceeded `RuntimeError`. -/
def capacityMsg : String :=
  "GraphZipper is already full. You can't add more points."

/-- The mutable state of a `GraphZipper` instance. -/
structure GraphZipper where
  base_size : ℕ
  zipped_size : ℕ
  compression_ratio : ℚ
  point_order : ℕ
  cached_ratios_sum : ℚ
  ratio_value_points : List (ℚ × ℚ)
  zipped_graph : List (ℤ × ℚ)
  deriving Repr

/-- `GraphZipper(base_size, zipped_size)`:
`compression_ratio = base_size / float(zipped_size)` when
`base_size >= zipped_size`, else `1`. -/
def GraphZipper.init (base_size : ℕ) (zipped_size : ℕ) : GraphZipper :=
  { base_size := base_size
    zipped_size := zipped_size
    compression_ratio :=
      if zipped_size ≤ base_size then (base_size : ℚ) / (zipped_size : ℚ)
      else 1
    point_order := 0
    cached_ratios_sum := 0
    ratio_value_points := []
    zipped_graph := [] }

/-- `_get_zipped_point()`: position `1` near the start
(`point_order - compression_ratio <= 1`), `base_size` on the literal
last point, otherwise `point_order - int(compression_ratio / 2.0)`;
value `sum(p[0] * p[1] for p in ratio_value_points) / compression_ratio`. -/
def GraphZipper._get_zipped_point (g : GraphZipper) : ℤ × ℚ :=
  let order : ℤ :=
    if (g.point_order : ℚ) - g.compression_ratio ≤ 1 then 1
    else if g.point_order = g.base_size then (g.base_size : ℤ)
    else (g.point_order : ℤ) - pyTrunc (g.compression_ratio / 2)
  let value : ℚ :=
    (g.ratio_value_points.map (fun p => p.1 * p.2)).sum / g.compression_ratio
  (order, value)

/-- `add_point(value)`: the updated object paired with the raised
exception message, if any.  Python increments `point_order` before the
capacity check, so the incremented state is returned even on failure.
A non-numeric value is modelled as `none` and coerced to `0`. -/
def GraphZipper.add_point (g : GraphZipper) (value : Option ℚ) :
    GraphZipper × Option String :=
  let g1 := { g with point_order := g.point_order + 1 }
  if g1.base_size < g1.point_order then
    (g1, some capacityMsg)
  else
    let v : ℚ := value.getD 0
    if g1.compression_ratio ≤ 1 then
      ({ g1 with
          zipped_graph := g1.zipped_graph ++ [((g1.point_order : ℤ), v)] },
        none)
    else if g1.cached_ratios_sum + 1 < g1.compression_ratio then
      ({ g1 with
          cached_ratios_sum := g1.cached_ratios_sum + 1,
          ratio_value_points := g1.ratio_value_points ++ [(1, v)] },
        none)
    else
      let rest := g1.compression_ratio - g1.cached_ratios_sum
      let g2 := { g1 with
        ratio_value_points := g1.ratio_value_points ++ [(rest, v)] }
      ({ g2 with
          zipped_graph := g2.zipped_graph ++ [g2._get_zipped_point],
          ratio_value_points := [(1 - rest, v)],
          cached_ratios_sum := 1 - rest },
        none)

/-- `get_zipped_graph()`. -/
def GraphZipper.get_zipped_graph (g : GraphZipper) : List (ℤ × ℚ) :=
  g.zipped_graph

/-- Feed points one at a time, stopping at the first raised exception
(which propagates to the caller together with the state at that
moment). -/
def feed (g : GraphZipper) : List (Option ℚ) → GraphZipper × Option String
  | [] => (g, none)
  | v :: vs =>
    match GraphZipper.add_point g v with
    | (g', none) => feed g' vs
    | (g', some e) => (g', some e)

/-- `add_point` on a non-full zipper succeeds and only ever increments
`point_order` by one, preserving the construction-time fields. -/
theorem add_point_ok (g : GraphZipper) (v : Option ℚ)
    (h : g.point_order < g.base_size) :
    (g.add_point v).2 = none
      ∧ (g.add_point v).1.point_order = g.point_order + 1
      ∧ (g.add_point v).1.base_size = g.base_size
      ∧ (g.add_point v).1.zipped_size = g.zipped_size
      ∧ (g.add_point v).1.compression_ratio = g.compression_ratio := by
  have hnot : ¬ g.base_size < g.point_order + 1 := by omega
  simp only [GraphZipper.add_point, if_neg hnot]
  split_ifs <;> simp

/-- Feeding at most the remaining capacity never raises and advances
`point_order` by the number of points fed. -/
theorem feed_ok (vs : List (Option ℚ)) :
    ∀ (g : GraphZipper), g.point_order + vs.length ≤ g.base_size →
    (feed g vs).2 = none
      ∧ (feed g vs).1.point_order = g.point_order + vs.length
      ∧ (feed g vs).1.base_size = g.base_size := by
  induction vs with
  | nil =>
    intro g _
    exact ⟨rfl, by simp [feed], rfl⟩
  | cons v rest ih =>
    intro g h
    simp only [List.length_cons] at h
    have hlt : g.point_order < g.base_size := by omega
    have hok := add_point_ok g v hlt
    rcases hpair : g.add_point v with ⟨g', e⟩
    rw [hpair] at hok
    obtain ⟨he, hpo, hbs, _, _⟩ := hok
    subst he
    have hih := ih g' (by rw [hpo, hbs]; omega)
    simp only [feed, hpair]
    exact ⟨hih.1, by rw [hih.2.1, hpo, List.length_cons]; omega,
      by rw [hih.2.2, hbs]⟩

/-- C10: once `point_order` has reached `base_size`, every further
`add_point` call raises the capacity error while leaving
`zipped_graph` — hence `get_zipped_graph()` — unchanged; the internal
`point_order` counter is nevertheless incremented before the check and
grows past `base_size` by one on each failing call. -/
theorem add_point_full (g : GraphZipper) (v : Option ℚ)
    (h : g.base_size ≤ g.point_order) :
    (g.add_point v).2 = some capacityMsg
      ∧ (g.add_point v).1.zipped_graph = g.zipped_graph
      ∧ (g.add_point v).1.get_zipped_graph = g.get_zipped_graph
      ∧ (g.add_point v).1.point_order = g.point_order + 1 := by
  have hlt : g.base_size < g.point_order + 1 := by omega
  simp [GraphZipper.add_point, GraphZipper.get_zipped_graph, if_pos hlt]

/-- C10 (witness): a zipper of declared size `0` has already absorbed
its full capacity; the first call fails and bumps `point_order` to 1. -/
theorem add_point_full_witness :
    ((GraphZipper.init 0 5).add_point (some 3)).2 = some capacityMsg
      ∧ ((GraphZipper.init 0 5).add_point (some 3)).1.zipped_graph
          = (GraphZipper.init 0 5).zipped_graph
      ∧ ((GraphZipper.init 0 5).add_point (some 3)).1.get_zipped_graph
          = (GraphZipper.init 0 5).get_zipped_graph
      ∧ ((GraphZipper.init 0 5).add_point (some 3)).1.point_order
          = (GraphZipper.init 0 5).point_order + 1 :=
  add_point_full (GraphZipper.init 0 5) (some 3) (by decide)

/-- C6: every `add_point` call first increments `point_order` and
raises the capacity error exactly when the incremented counter exceeds
`base_size`; in particular, feeding `base_size` points into a fresh
zipper succeeds and the next call fails with the capacity error. -/
theorem add_point_capacity (g : GraphZipper) (v v' : Option ℚ)
    (base zipped : ℕ) (vals : List (Option ℚ))
    (_hz : 0 < zipped) (hlen : vals.length = base) :
    (g.add_point v).1.point_order = g.point_order + 1
      ∧ ((g.add_point v).2 ≠ none ↔ g.base_size < g.point_order + 1)
      ∧ (g.base_size < g.point_order + 1 →
          (g.add_point v).2 = some capacityMsg)
      ∧ (feed (GraphZipper.init base zipped) vals).2 = none
      ∧ ((feed (GraphZipper.init base zipped) vals).1.add_point v').2
          = some capacityMsg := by
  have hfeed := feed_ok vals (GraphZipper.init base zipped)
    (by simp [GraphZipper.init, hlen])
  refine ⟨?_, ?_, ?_, hfeed.1, ?_⟩
  · by_cases hc : g.base_size < g.point_order + 1
    · simp [GraphZipper.add_point, if_pos hc]
    · exact (add_point_ok g v (by omega)).2.1
  · by_cases hc : g.base_size < g.point_order + 1
    · simp [GraphZipper.add_point, if_pos hc, hc]
    · simp [(add_point_ok g v (by omega)).1, hc]
  · intro hc
    simp [GraphZipper.add_point, if_pos hc]
  · have h := add_point_full (feed (GraphZipper.init base zipped) vals).1 v'
      (by rw [hfeed.2.2, hfeed.2.1]; simp [GraphZipper.init, hlen])
    exact h.1

/-- C6 (witness): `base_size = 2`, `zipped_size = 1`; two feeds
succeed, the third call fails with the capacity error. -/
theorem add_point_capacity_witness :
    (feed (GraphZipper.init 2 1) [none, some 1]).2 = none
      ∧ ((feed (GraphZipper.init 2 1) [none, some 1]).1.add_point
          (some 2)).2 = some capacityMsg := by
  have h := add_point_capacity (GraphZipper.init 3 7) none (some 2) 2 1
    [none, some 1] (by decide) (by decide)
  exact ⟨h.2.2.2.1, h.2.2.2.2⟩

/-- In the no-compression regime (`compression_ratio ≤ 1`), feeding
numeric values appends them verbatim with 1-based positions. -/
theorem feed_passthrough (vals : List ℚ) :
    ∀ (g : GraphZipper), g.compression_ratio ≤ 1 →
    g.point_order + vals.length ≤ g.base_size →
    (feed g (vals.map some)).1.zipped_graph
      = g.zipped_graph
        ++ (vals.enumFrom (g.point_order + 1)).map
            (fun p => ((p.1 : ℤ), p.2)) := by
  induction vals with
  | nil =>
    intro g _ _
    simp [feed]
  | cons v rest ih =>
    intro g hcr hle
    simp only [List.length_cons] at hle
    have hnot : ¬ g.base_size < g.point_order + 1 := by omega
    have hpair : g.add_point (some v)
        = ({ g with
              point_order := g.point_order + 1,
              zipped_graph := g.zipped_graph
                ++ [(((g.point_order + 1 : ℕ) : ℤ), v)] }, none) := by
      simp [GraphZipper.add_point, if_neg hnot, if_pos hcr]
    have hih := ih
      { g with
          point_order := g.point_order + 1,
          zipped_graph := g.zipped_graph
            ++ [(((g.point_order + 1 : ℕ) : ℤ), v)] }
      (by simpa using hcr) (by simp; omega)
    simp only [List.map_cons, feed, hpair]
    rw [hih]
    simp [List.enumFrom_cons, List.append_assoc]

/-- C7: with `base_size ≤ zipped_size` (and a positive `zipped_size`,
without which Python's constructor divides by zero),
`compression_ratio = 1` and no compression happens: feeding
`base_size` numeric values yields exactly those values with positions
`1..base_size`. -/
theorem zipper_no_compression (base zipped : ℕ) (vals : List ℚ)
    (hbz : base ≤ zipped) (hz : 0 < zipped) (hlen : vals.length = base) :
    (GraphZipper.init base zipped).compression_ratio = 1
      ∧ (feed (GraphZipper.init base zipped) (vals.map some)).2 = none
      ∧ (feed (GraphZipper.init base zipped) (vals.map some)).1.get_zipped_graph
          = (vals.enumFrom 1).map (fun p => ((p.1 : ℤ), p.2)) := by
  have hcr : (GraphZipper.init base zipped).compression_ratio = 1 := by
    simp only [GraphZipper.init]
    by_cases hc : zipped ≤ base
    · have hbe : base = zipped := le_antisymm hbz hc
      subst hbe
      rw [if_pos hc, div_self (by exact_mod_cast Nat.pos_iff_ne_zero.mp hz)]
    · rw [if_neg hc]
  refine ⟨hcr, ?_, ?_⟩
  · exact (feed_ok (vals.map some) (GraphZipper.init base zipped)
      (by simp [GraphZipper.init, hlen])).1
  · rw [GraphZipper.get_zipped_graph,
      feed_passthrough vals (GraphZipper.init base zipped) (le_of_eq hcr)
        (by simp [GraphZipper.init, hlen])]
    simp [GraphZipper.init]

/-- C7 (witness): `base_size = 2 ≤ 3 = zipped_size`; the two values
pass through unchanged at positions 1 and 2. -/
theorem zipper_no_compression_witness :
    (GraphZipper.init 2 3).compression_ratio = 1
      ∧ (feed (GraphZipper.init 2 3) ([(5 : ℚ), 7].map some)).2 = none
      ∧ (feed (GraphZipper.init 2 3) ([(5 : ℚ), 7].map some)).1.get_zipped_graph
          = [(1, 5), (2, 7)] := by
  have h := zipper_no_compression 2 3 [5, 7] (by decide) (by decide) (by decide)
  exact ⟨h.1, h.2.1, by rw [h.2.2]; rfl⟩

/-- C3: whenever a zipper with `compression_ratio > 1` flushes (the
incoming point completes the current window and capacity is not
exceeded), the appended point's position follows the ordered rule
1 / `base_size` / `point_order − ⌊compression_ratio/2⌋` (on the
already-incremented `point_order`), and its value is the weighted sum
of all pending `(weight, value)` contributions — including the
window-completing `rest` contribution — divided by
`compression_ratio`. -/
theorem zipped_point_formula (g : GraphZipper) (v : Option ℚ)
    (hcr : 1 < g.compression_ratio)
    (hfull : ¬ g.cached_ratios_sum + 1 < g.compression_ratio)
    (hcap : g.point_order + 1 ≤ g.base_size) :
    (g.add_point v).1.zipped_graph = g.zipped_graph ++
      [(if ((g.point_order + 1 : ℕ) : ℚ) - g.compression_ratio ≤ 1 then 1
        else if g.point_order + 1 = g.base_size then (g.base_size : ℤ)
        else ((g.point_order + 1 : ℕ) : ℤ) - ⌊g.compression_ratio / 2⌋,
        ((g.ratio_value_points ++
            [(g.compression_ratio - g.cached_ratios_sum, v.getD 0)]).map
          (fun p => p.1 * p.2)).sum / g.compression_ratio)] := by
  have hnot : ¬ g.base_size < g.point_order + 1 := by omega
  have hcle : ¬ g.compression_ratio ≤ 1 := not_le.mpr hcr
  have htr : pyTrunc (g.compression_ratio / 2) = ⌊g.compression_ratio / 2⌋ :=
    pyTrunc_of_nonneg (by positivity)
  simp [GraphZipper.add_point, if_neg hnot, if_neg hcle, if_neg hfull,
    GraphZipper._get_zipped_point, htr]

/-- C3 (witness): ratio 2, second point completes the first window;
the flushed point is `(1, (1·5 + 1·3)/2) = (1, 4)`. -/
theorem zipped_point_formula_witness :
    ((⟨4, 2, 2, 1, 1, [(1, 5)], []⟩ : GraphZipper).add_point
        (some 3)).1.zipped_graph = [(1, 4)] := by
  have h := zipped_point_formula ⟨4, 2, 2, 1, 1, [(1, 5)], []⟩ (some 3)
    (by norm_num) (by norm_num) (by norm_num)
  rw [h]
  norm_num

/-- Invariant of a zipper in the compression regime
(`base_size > zipped_size ≥ 1`) after `n` points have been fed:
construction-time fields are fixed, `cached_ratios_sum` accounts
exactly for the weight not yet flushed, it stays in
`[0, compression_ratio)`, and the flushed positions are strictly
increasing, at least `1`, and at most
`point_order − ⌊compression_ratio/2⌋` except for a final point pinned
at `base_size`. -/
def ZipInv (base zipped n : ℕ) (g : GraphZipper) : Prop :=
  g.base_size = base
    ∧ g.zipped_size = zipped
    ∧ g.compression_ratio = (base : ℚ) / (zipped : ℚ)
    ∧ g.point_order = n
    ∧ g.cached_ratios_sum
        = (n : ℚ) - (g.zipped_graph.length : ℚ) * g.compression_ratio
    ∧ 0 ≤ g.cached_ratios_sum
    ∧ g.cached_ratios_sum < g.compression_ratio
    ∧ g.zipped_graph.Pairwise (fun a b => a.1 < b.1)
    ∧ ∀ q ∈ g.zipped_graph, 1 ≤ q.1
        ∧ (q.1 ≤ (n : ℤ) - ⌊g.compression_ratio / 2⌋
            ∨ (q.1 = (base : ℤ) ∧ n = base))


theorem zip_step (base zipped : ℕ) (hz : 0 < zipped) (hzb : zipped < base)
    {n : ℕ} (hn : n < base) {g : GraphZipper} (h : ZipInv base zipped n g)
    (v : Option ℚ) :
    (g.add_point v).2 = none ∧ ZipInv base zipped (n + 1) (g.add_point v).1 := by
  obtain ⟨hbs, hzs, hcr, hpo, hsum, h0, hlt, hpw, hbnd⟩ := h
  have hzq : (0 : ℚ) < (zipped : ℚ) := by exact_mod_cast hz
  have hcr1 : 1 < g.compression_ratio := by
    rw [hcr, lt_div_iff₀ hzq, one_mul]
    exact_mod_cast hzb
  have hcrpos : (0 : ℚ) < g.compression_ratio := lt_trans one_pos hcr1
  have hflnn : (0 : ℤ) ≤ ⌊g.compression_ratio / 2⌋ :=
    Int.floor_nonneg.mpr (by positivity)
  have hfl_le : (⌊g.compression_ratio / 2⌋ : ℚ) ≤ g.compression_ratio / 2 :=
    Int.floor_le _
  have hnotcap : ¬ g.base_size < g.point_order + 1 := by
    rw [hbs, hpo]; omega
  have hncr : ¬ g.compression_ratio ≤ 1 := not_le.mpr hcr1
  by_cases hacc : g.cached_ratios_sum + 1 < g.compression_ratio
  · -- the window is not yet full: accumulate a unit weight
    have heq : g.add_point v = ({ g with
        point_order := g.point_order + 1,
        cached_ratios_sum := g.cached_ratios_sum + 1,
        ratio_value_points := g.ratio_value_points ++ [(1, v.getD 0)] },
      none) := by
      simp [GraphZipper.add_point, if_neg hnotcap, if_neg hncr, if_pos hacc]
    rw [heq]
    refine ⟨rfl, ?_⟩
    unfold ZipInv
    dsimp only
    refine ⟨hbs, hzs, hcr, by rw [hpo], ?_, by linarith, hacc, hpw, ?_⟩
    · rw [hsum]
      push_cast
      ring
    · intro q hq
      obtain ⟨h1, hd⟩ := hbnd q hq
      refine ⟨h1, ?_⟩
      rcases hd with hd | hd
      · left
        push_cast at hd ⊢
        linarith
      · exact absurd hd.2 (by omega)
  · -- the incoming point completes the window: flush
    have hcle : g.compression_ratio ≤ g.cached_ratios_sum + 1 := not_lt.mp hacc
    have hrest_pos : 0 < g.compression_ratio - g.cached_ratios_sum := by
      linarith
    have hrest_le : g.compression_ratio - g.cached_ratios_sum ≤ 1 := by
      linarith
    have hko : ((g.zipped_graph.length : ℚ) + 1) * g.compression_ratio
        ≤ (n : ℚ) + 1 := by
      nlinarith [hsum, hcle]
    have htr : pyTrunc (g.compression_ratio / 2)
        = ⌊g.compression_ratio / 2⌋ := pyTrunc_of_nonneg (by positivity)
    have heq : g.add_point v = ({ g with
        point_order := g.point_order + 1,
        ratio_value_points :=
          [(1 - (g.compression_ratio - g.cached_ratios_sum), v.getD 0)],
        cached_ratios_sum :=
          1 - (g.compression_ratio - g.cached_ratios_sum),
        zipped_graph := g.zipped_graph ++
          [(if ((g.point_order + 1 : ℕ) : ℚ) - g.compression_ratio ≤ 1 then 1
            else if g.point_order + 1 = g.base_size then (g.base_size : ℤ)
            else ((g.point_order + 1 : ℕ) : ℤ)
              - pyTrunc (g.compression_ratio / 2),
            ((g.ratio_value_points ++
                [(g.compression_ratio - g.cached_ratios_sum, v.getD 0)]).map
              (fun p => p.1 * p.2)).sum / g.compression_ratio)] }, none) := by
      simp [GraphZipper.add_point, if_neg hnotcap, if_neg hncr, if_neg hacc,
        GraphZipper._get_zipped_point]
    rw [heq]
    refine ⟨rfl, ?_⟩
    unfold ZipInv
    dsimp only
    rw [htr, hpo, hbs]
    set newpos : ℤ :=
      if ((n + 1 : ℕ) : ℚ) - g.compression_ratio ≤ 1 then 1
      else if n + 1 = base then (base : ℤ)
      else ((n + 1 : ℕ) : ℤ) - ⌊g.compression_ratio / 2⌋
      with hnewpos
    have hold_lt : ∀ q ∈ g.zipped_graph, q.1 < newpos := by
      intro q hq
      obtain ⟨hq1, hqd⟩ := hbnd q hq
      have hqle : q.1 ≤ (n : ℤ) - ⌊g.compression_ratio / 2⌋ := by
        rcases hqd with hd | hd
        · exact hd
        · exact absurd hd.2 (by omega)
      rw [hnewpos]
      split_ifs with hA hB
      · -- a flush "near the start" can only be the first flush
        exfalso
        have hlen1 : 1 ≤ (g.zipped_graph.length : ℚ) := by
          have : 0 < g.zipped_graph.length :=
            List.length_pos.mpr (List.ne_nil_of_mem hq)
          exact_mod_cast this
        push_cast at hA
        nlinarith
      · -- the last point: all older positions are below base_size
        have hnz : ((n : ℕ) : ℤ) < (base : ℤ) := by exact_mod_cast hn
        linarith
      · push_cast at hqle ⊢
        linarith
    have hnew_ge1 : 1 ≤ newpos := by
      rw [hnewpos]
      split_ifs with hA hB
      · exact le_refl 1
      · have : (0 : ℤ) < (base : ℤ) := by
          exact_mod_cast (by omega : 0 < base)
        linarith
      · push_neg at hA
        have hq : (1 : ℚ) ≤ ((n + 1 : ℕ) : ℚ)
            - (⌊g.compression_ratio / 2⌋ : ℚ) := by
          push_cast at hA ⊢
          linarith
        exact_mod_cast hq
    refine ⟨rfl, hzs, hcr, rfl, ?_, by linarith, by linarith, ?_, ?_⟩
    · simp only [List.length_append, List.length_singleton]
      rw [hsum]
      push_cast
      ring
    · rw [List.pairwise_append]
      refine ⟨hpw, List.pairwise_singleton _ _, ?_⟩
      intro a ha b hb
      simp only [List.mem_singleton] at hb
      subst hb
      exact hold_lt a ha
    · intro q hq
      simp only [List.mem_append, List.mem_singleton] at hq
      rcases hq with hq | hq
      · obtain ⟨hq1, hqd⟩ := hbnd q hq
        refine ⟨hq1, ?_⟩
        rcases hqd with hd | hd
        · left
          push_cast at hd ⊢
          linarith
        · exact absurd hd.2 (by omega)
      · subst hq
        refine ⟨hnew_ge1, ?_⟩
        show newpos ≤ _ ∨ _
        rw [hnewpos]
        split_ifs with hA hB
        · left
          -- the first flush happens no earlier than `compression_ratio`
          have hlen0 : (0 : ℚ) ≤ (g.zipped_graph.length : ℚ) := by positivity
          have hge : g.compression_ratio ≤ (n : ℚ) + 1 := by nlinarith
          have hfl_lt : (⌊g.compression_ratio / 2⌋ : ℚ) < (n : ℚ) + 1 := by
            have : g.compression_ratio / 2 < g.compression_ratio := by
              linarith
            linarith
          have hint : ⌊g.compression_ratio / 2⌋ < ((n + 1 : ℕ) : ℤ) := by
            exact_mod_cast (by push_cast at hfl_lt ⊢; linarith :
              ((⌊g.compression_ratio / 2⌋ : ℤ) : ℚ) < ((n + 1 : ℕ) : ℚ))
          linarith
        · right
          exact ⟨rfl, by omega⟩
        · left
          exact le_refl _

theorem zip_feed (base zipped : ℕ) (hz : 0 < zipped) (hzb : zipped < base) :
    ∀ (vals : List (Option ℚ)) (n : ℕ) (g : GraphZipper),
    ZipInv base zipped n g → n + vals.length ≤ base →
    ZipInv base zipped (n + vals.length) (feed g vals).1 := by
  intro vals
  induction vals with
  | nil =>
    intro n g h _
    simpa [feed] using h
  | cons v rest ih =>
    intro n g h hle
    simp only [List.length_cons] at hle
    have hn : n < base := by omega
    have hstep := zip_step base zipped hz hzb hn h v
    rcases hpair : g.add_point v with ⟨g', e⟩
    rw [hpair] at hstep
    obtain ⟨he, hinv⟩ := hstep
    simp only at he
    subst he
    have hrest := ih (n + 1) g' hinv (by omega)
    simp only [feed, hpair, List.length_cons]
    have harith : n + (rest.length + 1) = (n + 1) + rest.length := by omega
    rw [harith]
    exact hrest

/-- C2: a zipper built with `base_size > zipped_size ≥ 1` and fed at
most `base_size` points never raises; the positions in
`get_zipped_graph()` are strictly increasing and lie in
`[1, base_size]`; the output length never exceeds `zipped_size + 1`;
and once all `base_size` points are fed it is within ±1 of
`zipped_size` (in this exact-arithmetic model it is then exactly
`zipped_size`, within the claimed band). -/
theorem zipper_compression_invariants (base zipped : ℕ)
    (vals : List (Option ℚ)) (hz : 0 < zipped) (hzb : zipped < base)
    (hlen : vals.length ≤ base) :
    (feed (GraphZipper.init base zipped) vals).2 = none
      ∧ ((feed (GraphZipper.init base zipped) vals).1.get_zipped_graph.Pairwise
          (fun a b => a.1 < b.1))
      ∧ (∀ q ∈ (feed (GraphZipper.init base zipped) vals).1.get_zipped_graph,
          1 ≤ q.1 ∧ q.1 ≤ (base : ℤ))
      ∧ (feed (GraphZipper.init base zipped) vals).1.get_zipped_graph.length
          ≤ zipped + 1
      ∧ (vals.length = base →
          zipped - 1 ≤
              (feed (GraphZipper.init base zipped) vals).1.get_zipped_graph.length
            ∧ (feed (GraphZipper.init base zipped) vals).1.get_zipped_graph.length
              ≤ zipped + 1) := by
  have hzq : (0 : ℚ) < (zipped : ℚ) := by exact_mod_cast hz
  have hcr_init : (GraphZipper.init base zipped).compression_ratio
      = (base : ℚ) / (zipped : ℚ) := by
    simp [GraphZipper.init, if_pos (le_of_lt hzb)]
  have hcrpos : (0 : ℚ) < (base : ℚ) / (zipped : ℚ) := by
    apply div_pos _ hzq
    exact_mod_cast (by omega : 0 < base)
  have hinit : ZipInv base zipped 0 (GraphZipper.init base zipped) := by
    refine ⟨rfl, rfl, hcr_init, rfl, by simp [GraphZipper.init], le_refl 0,
      by rw [hcr_init]; exact hcrpos, List.Pairwise.nil, by simp [GraphZipper.init]⟩
  have hall := zip_feed base zipped hz hzb vals 0
    (GraphZipper.init base zipped) hinit (by omega)
  simp only [Nat.zero_add] at hall
  obtain ⟨hbs, _hzs, hcr, _hpo, hsum, h0, hlt, hpw, hbnd⟩ := hall
  have herr := (feed_ok vals (GraphZipper.init base zipped)
    (by simp [GraphZipper.init]; omega)).1
  have hcrv : (feed (GraphZipper.init base zipped) vals).1.compression_ratio
      = (base : ℚ) / (zipped : ℚ) := hcr
  rw [hcrv] at hsum hlt
  have hflnn : (0 : ℤ) ≤ ⌊(base : ℚ) / (zipped : ℚ) / 2⌋ :=
    Int.floor_nonneg.mpr (by positivity)
  have hbase_eq : (zipped : ℚ) * ((base : ℚ) / (zipped : ℚ)) = (base : ℚ) := by
    field_simp
  have hlen_le : (feed (GraphZipper.init base zipped) vals).1.zipped_graph.length
      ≤ zipped := by
    have h1 : ((feed (GraphZipper.init base zipped) vals).1.zipped_graph.length : ℚ)
        * ((base : ℚ) / (zipped : ℚ)) ≤ (vals.length : ℚ) := by
      linarith
    have h2 : (vals.length : ℚ) ≤ (zipped : ℚ) * ((base : ℚ) / (zipped : ℚ)) := by
      rw [hbase_eq]
      exact_mod_cast hlen
    have h3 : ((feed (GraphZipper.init base zipped) vals).1.zipped_graph.length : ℚ)
        ≤ (zipped : ℚ) :=
      le_of_mul_le_mul_right (le_trans h1 h2) hcrpos
    exact_mod_cast h3
  refine ⟨herr, hpw, ?_, by
    show (feed (GraphZipper.init base zipped) vals).1.zipped_graph.length ≤ _
    omega, ?_⟩
  · intro q hq
    obtain ⟨h1, hd⟩ := hbnd q hq
    refine ⟨h1, ?_⟩
    rcases hd with hd | hd
    · rw [hcrv] at hd
      have hnz : ((vals.length : ℕ) : ℤ) ≤ (base : ℤ) := by exact_mod_cast hlen
      linarith
    · exact le_of_eq hd.1
  · intro hfull
    have hge : zipped ≤
        (feed (GraphZipper.init base zipped) vals).1.zipped_graph.length := by
      have h1 : ((zipped : ℚ) - 1) * ((base : ℚ) / (zipped : ℚ))
          < ((feed (GraphZipper.init base zipped) vals).1.zipped_graph.length : ℚ)
            * ((base : ℚ) / (zipped : ℚ)) := by
        have hq : ((feed (GraphZipper.init base zipped) vals).1.zipped_graph.length : ℚ)
            * ((base : ℚ) / (zipped : ℚ))
            = (vals.length : ℚ)
              - (feed (GraphZipper.init base zipped) vals).1.cached_ratios_sum := by
          linarith
        rw [hq, hfull]
        have : ((zipped : ℚ) - 1) * ((base : ℚ) / (zipped : ℚ))
            = (base : ℚ) - (base : ℚ) / (zipped : ℚ) := by
          field_simp
          ring
        rw [this]
        linarith
      have h2 : (zipped : ℚ) - 1
          < ((feed (GraphZipper.init base zipped) vals).1.zipped_graph.length : ℚ) :=
        lt_of_mul_lt_mul_right (by linarith [h1]) (le_of_lt hcrpos)
      have h3 : (zipped : ℤ) - 1
          < ((feed (GraphZipper.init base zipped) vals).1.zipped_graph.length : ℤ) := by
        exact_mod_cast h2
      omega
    constructor
    · show zipped - 1 ≤
        (feed (GraphZipper.init base zipped) vals).1.zipped_graph.length
      omega
    · show (feed (GraphZipper.init base zipped) vals).1.zipped_graph.length
        ≤ zipped + 1
      omega

/-- C2 (witness): `base_size = 5`, `zipped_size = 2`, three points
fed — no error and the accumulated graph obeys all the bounds. -/
theorem zipper_compression_invariants_witness :
    (feed (GraphZipper.init 5 2) [some 1, some 2, some 3]).2 = none
      ∧ (feed (GraphZipper.init 5 2)
          [some 1, some 2, some 3]).1.get_zipped_graph.length ≤ 2 + 1 := by
  have h := zipper_compression_invariants 5 2 [some 1, some 2, some 3]
    (by omega) (by omega) (by simp)
  exact ⟨h.1, h.2.2.2.1⟩

end Rally
